import Mathlib

/-!
# Verification of the recursive model index (RMI) implementation

Shallow embedding of the Go sources `rmi.go` and `regression.go` of the
`rmi` package (a learned-index structure built from recursive linear
regressions), together with theorems settling the frozen claims about it.

Modelling conventions:

* `*big.Int` keys and ranks are embedded as `ℤ` (exact, like `big.Int`).
* `*big.Float` quantities are embedded as exact rationals `ℚ`.  The Go code
  creates every `big.Float` with 53 bits of mantissa; we idealise the
  rounding away.  Every concrete input exercised below keeps all
  intermediate values exactly representable in 53 bits, and the structural
  claims (clamping, bounds, shape, traversal order) are independent of
  rounding, so no conclusion depends on this idealisation.
* Go run-time panics are modelled by `Option`/failure values (`none`):
  `big.Float.Quo` panics with `ErrNaN` when both operands are zero, and a
  slice/array access out of range panics.  `big.Float.Quo` of a nonzero
  numerator by zero yields `±Inf`; the only place an infinity can reach in
  this program is the stored (and never read) `w` field of a node, which is
  therefore embedded with the three-valued type `BF` below, and the
  saturating `Int64` conversion of an infinite prediction inside `GetIndex`,
  which is folded into the subsequent clamp.
* `int` / `float64` conversions of list lengths and loop bounds are exact
  for every length below `2^53`; they are embedded as exact integer
  operations (`int(float64(n)/float64(w))` becomes floored division).
-/

namespace Rmi

/-- A `big.Float` result that may be `±Inf` (the program can store an
infinity only in the unused `w` field of a node). -/
inductive BF where
  | fin : ℚ → BF
  | posInf : BF
  | negInf : BF
deriving DecidableEq, Repr

/-- `Node` from `rmi.go`: the linear model `m·x + b` of one tree slot plus
its x intercept `w` (with `m·w + b = 0`). -/
structure Node where
  m : ℚ
  b : ℚ
  w : BF
deriving DecidableEq, Repr

/-- `mean` from `regression.go`: sum of the values divided by their count
(`big.Float` division; for the empty list Go would panic in the final
`Quo(0, 0)` — all call sites reach `mean` only with at least two values). -/
def mean (values : List ℤ) : ℚ :=
  (values.map (fun (a : ℤ) => (a : ℚ))).sum / values.length

/-- `covariance` from `regression.go`: `Σ (xᵢ − meanX)·(yᵢ − meanY)`.
Go indexes `y` with the indices of `x`; the two lists have equal length at
every call site, where `zipWith` coincides with Go's indexing. -/
def covariance (x y : List ℤ) (meanX meanY : ℚ) : ℚ :=
  (List.zipWith (fun (a c : ℤ) => ((a : ℚ) - meanX) * ((c : ℚ) - meanY)) x y).sum

/-- `variance` from `regression.go`: `Σ (xᵢ − meanValue)²` (the code
multiplies the deviation with itself). -/
def variance (values : List ℤ) (meanValue : ℚ) : ℚ :=
  (values.map (fun (a : ℤ) => ((a : ℚ) - meanValue) * ((a : ℚ) - meanValue))).sum

/-- `coefficients` from `regression.go`.  Returns `(b0, b1, w)` =
(intercept, slope, x intercept), or `none` when the Go code panics:
`Quo(covariance, variance)` panics when both are zero (over exact
arithmetic a zero variance forces a zero covariance, see
`variance_eq_zero_covariance`, so a zero variance always panics here), and
`w.Quo(-b0, b1)` panics when `b0 = 0 ∧ b1 = 0`; when `b1 = 0 ∧ b0 ≠ 0` the
quotient is the infinity carrying the sign of `-b0`. -/
def coefficients (predVars target : List ℤ) : Option (ℚ × ℚ × BF) :=
  let meanX := mean predVars
  let meanY := mean target
  let cov := covariance predVars target meanX meanY
  let varX := variance predVars meanX
  if varX = 0 then none
  else
    let b1 := cov / varX
    let b0 := meanY - meanX * b1
    if b1 = 0 then
      if b0 = 0 then none
      else some (b0, b1, if 0 < -b0 then BF.posInf else BF.negInf)
    else some (b0, b1, BF.fin (-b0 / b1))

/-- The layered node storage `rmi.nodes`: layer by layer, each slot holding
`none` until `buildRecursive` stores a node in it (`nil` pointers in Go). -/
abbrev Store := List (List (Option Node))

/-- Read slot `(layer, pos)` of the store (`nil` when out of range —
dereferencing such a slot is a Go panic, modelled at the use sites). -/
def storeGet (st : Store) (layer pos : ℕ) : Option Node :=
  (st.getD layer []).getD pos none

/-- Write slot `(layer, pos)`; `none` when the indices are out of range
(Go: index-out-of-range panic). -/
def setStore (st : Store) (layer pos : ℕ) (nd : Node) : Option Store :=
  if layer < st.length ∧ pos < (st.getD layer []).length then
    some (st.set layer ((st.getD layer []).set pos (some nd)))
  else none

/-- The node computation at the head of `buildRecursive`: `b`, `m`, `w`
start at zero; with at least 2 samples they come from `coefficients`
(which returns `(b, m, w)`), otherwise `b` is forced to the carried
`offset`. -/
def mkNode (values indices : List ℤ) (offset : ℤ) : Option Node :=
  if 2 ≤ indices.length then
    (coefficients values indices).map (fun r => ⟨r.2.1, r.1, r.2.2⟩)
  else
    some ⟨0, (offset : ℚ), BF.fin 0⟩

/-- The bounds clamp at the top of the child loop in `buildRecursive`:
`rightIndex <= 0` resets both bounds to 0, `rightIndex >= len(indices)`
pulls the right bound back to `len(indices) - 1`. -/
def clampTop (n left right : ℤ) : ℤ × ℤ :=
  if right ≤ 0 then (0, 0)
  else if n ≤ right then (left, n - 1)
  else (left, right)

/-- The right-bound update at the bottom of the child loop:
`int(math.Max(0, math.Min(float64(rightIndex+rangeSize), float64(len(indices))) - 1))`. -/
def nextRight (n rs right : ℤ) : ℤ :=
  max 0 (min (right + rs) n - 1)

/-- `values[left:right]` (both bounds are nonnegative and `left ≤ right`
whenever the Go code slices). -/
def slice (l : List ℤ) (left right : ℤ) : List ℤ :=
  (l.take right.toNat).drop left.toNat

/-- The `for i := 0; i < rmi.width; i++` loop of `buildRecursive`,
threading `leftIndex`, `rightIndex`, the carried `offset` and the store
through the `width` child calls.  `recurse` is the recursive call to
`buildRecursive` at the next layer (values slice, indices slice, offset,
location in layer, store). -/
def childLoop (recurse : List ℤ → List ℤ → ℤ → ℕ → Store → Option Store)
    (values indices : List ℤ) (rs : ℤ) (loc width : ℕ) :
    ℕ → ℕ → ℤ → ℤ → ℤ → Store → Option Store
  | 0, _, _, _, _, st => some st
  | fuel + 1, i, left, right, offset, st =>
    let lr := clampTop indices.length left right
    -- Go: `if leftIndex != rightIndex { subIndices = indices[l:r]; offset = subIndices[0] }`
    let subIndices := if lr.1 ≠ lr.2 then slice indices lr.1 lr.2 else ([] : List ℤ)
    let offset := if lr.1 ≠ lr.2 then subIndices.headI else offset
    match recurse (slice values lr.1 lr.2) subIndices offset (loc * width + i) st with
    | none => none
    | some st1 =>
      childLoop recurse values indices rs loc width fuel (i + 1) lr.2
        (nextRight indices.length rs lr.2) offset st1

/-- `buildRecursive` from `rmi.go`, with the recursion depth made explicit:
`rem` is `depth - 1 - currentDepth`, so `rem = 0` is the leaf layer
(`currentDepth == rmi.depth - 1`).  Returns the updated store, or `none`
when the Go code panics (division of zero by zero inside `coefficients`,
or a node write out of range). -/
def buildRecursive (width : ℕ) :
    ℕ → List ℤ → List ℤ → ℤ → ℕ → ℕ → Store → Option Store
  | 0, values, indices, offset, curDepth, loc, st =>
    match mkNode values indices offset with
    | none => none
    | some nd => setStore st curDepth loc nd
  | rem + 1, values, indices, offset, curDepth, loc, st =>
    match mkNode values indices offset with
    | none => none
    | some nd =>
      match setStore st curDepth loc nd with
      | none => none
      | some st1 =>
        -- rangeSize := int(float64(len(values)) / float64(rmi.width))
        let rs : ℤ := (values.length : ℤ) / (width : ℤ)
        childLoop (fun v i o l s => buildRecursive width rem v i o (curDepth + 1) l s)
          values indices rs loc width width 0 0 (max 0 rs) offset st1

/-- The `sort.SliceIsSorted` check of `NewRMI`: no adjacent pair with
`values[i+1] < values[i]` (non-decreasing, duplicates permitted). -/
def isSortedCheck : List ℤ → Bool
  | [] => true
  | [_] => true
  | a :: b :: rest => (decide (¬ b < a)) && isSortedCheck (b :: rest)

/-- `RMI` from `rmi.go`.  `root` is the node stored at `nodes[0][0]` (the
pointer returned by the root `buildRecursive` call), so it is not kept as a
separate field. -/
structure RMI where
  width : ℕ
  depth : ℕ
  maxIndex : ℤ
  nodes : Store
deriving DecidableEq, Repr

/-- How `NewRMI` can fail: the returned sortedness error, or a Go run-time
panic escaping the build (modelled failure, not a returned error). -/
inductive BuildFailure where
  | unsorted : BuildFailure
  | panicked : BuildFailure
deriving DecidableEq, Repr

/-- The per-layer slot allocation of `NewRMI`: `layerSize` starts at 1 and
is multiplied by `width` per layer. -/
def initLayers : ℕ → ℕ → ℕ → Store
  | 0, _, _ => []
  | d + 1, width, layerSize =>
    List.replicate layerSize none :: initLayers d width (layerSize * width)

/-- `NewRMI` from `rmi.go`: sortedness check first (all-or-nothing:
`(nil, error)` on failure), then rank array, layer allocation,
`maxIndex = len(values) - 1`, and the recursive build. -/
def newRMI (values : List ℤ) (width depth : ℕ) : Except BuildFailure RMI :=
  if isSortedCheck values then
    let indices := (List.range values.length).map (fun (i : ℕ) => (i : ℤ))
    let st := initLayers depth width 1
    match buildRecursive width (depth - 1) values indices 0 0 0 st with
    | none => Except.error BuildFailure.panicked
    | some st1 => Except.ok ⟨width, depth, (values.length : ℤ) - 1, st1⟩
  else Except.error BuildFailure.unsorted

/-- Truncation toward zero of a rational, the semantics of
`big.Float.Int64` (saturation at `±2^63` is folded into the clamps that
follow every conversion in `GetIndex`; all in-range bounds are far below
`2^63`). -/
def ratTrunc (q : ℚ) : ℤ :=
  if 0 ≤ q then ⌊q⌋ else -⌊-q⌋

/-- The final clamp of `GetIndex` at the leaf layer:
`if nextIndex > maxIndex … else if nextIndex < 0 …`. -/
def clampLeaf (maxIndex t : ℤ) : ℤ :=
  if maxIndex < t then maxIndex
  else if t < 0 then 0
  else t

/-- The slot clamp of `GetIndex` at an internal layer:
`if nextIndex < 0 … else if nextIndex >= len(rmi.nodes[nextLayer]) …`. -/
def clampSlot (size : ℕ) (t : ℤ) : ℤ :=
  if t < 0 then 0
  else if (size : ℤ) ≤ t then (size : ℤ) - 1
  else t

/-- The `for` loop of `GetIndex`.  `fuel` counts the internal layers still
to traverse (`rmi.depth - nextLayer`), `layer` is `nextLayer`, `scale` the
running `width` float.  The first component counts how many node models
`m·key + b` were evaluated; the second is the returned index, `none` when
the Go code panics: `Quo(0, 0)` when `maxIndex = 0` and the prediction is
zero, `Mul(±Inf, 0)` when it is nonzero but `scale = 0`, an index panic on
an empty layer, and a `nil` node dereference. -/
def getIndexLoop (st : Store) (width : ℕ) (maxIndex : ℤ) (value : ℤ) :
    Node → ℚ → ℕ → ℕ → ℕ × Option ℤ
  | nd, _, 0, _ =>
    (1, some (clampLeaf maxIndex (ratTrunc (nd.m * value + nd.b))))
  | nd, scale, fuel + 1, layer =>
    let p := nd.m * value + nd.b
    if maxIndex = 0 ∧ p = 0 then (1, none)
    else if maxIndex = 0 ∧ scale = 0 then (1, none)
    else
      let size := (st.getD layer []).length
      if size = 0 then (1, none)
      else
        let slot : ℤ :=
          if maxIndex = 0 then (if 0 < p then (size : ℤ) - 1 else 0)
          else clampSlot size (ratTrunc (p / (maxIndex : ℚ) * scale))
        match storeGet st layer slot.toNat with
        | none => (1, none)
        | some child =>
          let r := getIndexLoop st width maxIndex value child
            (scale * width) fuel (layer + 1)
          (r.1 + 1, r.2)

/-- `GetIndex` from `rmi.go`.  `none` models a Go run-time panic (which
also happens immediately when `depth = 0`, where the loop indexes the
nonexistent `rmi.nodes[1]`). -/
def getIndex (rmi : RMI) (value : ℤ) : Option ℤ :=
  match storeGet rmi.nodes 0 0 with
  | none => none
  | some root =>
    if rmi.depth = 0 then none
    else (getIndexLoop rmi.nodes rmi.width rmi.maxIndex value root
      (rmi.width : ℚ) (rmi.depth - 1) 1).2

/-- Number of node models evaluated by one `GetIndex` call. -/
def getIndexSteps (rmi : RMI) (value : ℤ) : ℕ :=
  match storeGet rmi.nodes 0 0 with
  | none => 0
  | some root =>
    if rmi.depth = 0 then 0
    else (getIndexLoop rmi.nodes rmi.width rmi.maxIndex value root
      (rmi.width : ℚ) (rmi.depth - 1) 1).1

/-- The sequence of `[leftIndex, rightIndex)` bounds that the child loop of
`buildRecursive` slices, built from the same `clampTop` / `nextRight` steps
and the same initial bounds (`left = 0`, `right = max 0 rangeSize`) that
`childLoop` applies. -/
def subrangesAux (n rs : ℤ) : ℕ → ℤ → ℤ → List (ℤ × ℤ)
  | 0, _, _ => []
  | fuel + 1, left, right =>
    let lr := clampTop n left right
    lr :: subrangesAux n rs fuel lr.2 (nextRight n rs lr.2)

/-- The `width` sub-ranges a non-leaf node with sample count `n` carves,
with `rangeSize = ⌊n / width⌋` exactly as in `buildRecursive`. -/
def subranges (width n : ℕ) : List (ℤ × ℤ) :=
  let rs : ℤ := (n : ℤ) / (width : ℤ)
  subrangesAux n rs width 0 (max 0 rs)

/-- The traversal of the spec's words (claim C6), for comparison with
`getIndexLoop`: at each non-leaf layer evaluate `p = m·key + b`, divide by
`maxIndex`, multiply by the accumulated scale, take the floor, clamp it
into the slot bounds `[0, width^layer − 1]` of the next layer, descend;
at the leaf layer return `p` (no division by `maxIndex`) clamped into
`[0, maxIndex]`. -/
def getIndexSpecLoop (st : Store) (width : ℕ) (maxIndex : ℤ) (value : ℤ) :
    Node → ℚ → ℕ → ℕ → Option ℤ
  | nd, _, 0, _ =>
    some (min maxIndex (max 0 ⌊nd.m * value + nd.b⌋))
  | nd, scale, fuel + 1, layer =>
    let p := nd.m * value + nd.b
    let childIndex : ℤ :=
      min ((width : ℤ) ^ layer - 1) (max 0 ⌊p / (maxIndex : ℚ) * scale⌋)
    match storeGet st layer childIndex.toNat with
    | none => none
    | some child =>
      getIndexSpecLoop st width maxIndex value child (scale * width) fuel
        (layer + 1)

/-- Whole-query form of the spec's traversal, with the same entry steps as
`getIndex`. -/
def getIndexSpec (rmi : RMI) (value : ℤ) : Option ℤ :=
  match storeGet rmi.nodes 0 0 with
  | none => none
  | some root =>
    if rmi.depth = 0 then none
    else getIndexSpecLoop rmi.nodes rmi.width rmi.maxIndex value root
      (rmi.width : ℚ) (rmi.depth - 1) 1

/-! ## Store lemmas -/

theorem getD_set_ne {α : Type} (l : List α) (i j : ℕ) (a d : α) (h : i ≠ j) :
    (l.set i a).getD j d = l.getD j d := by
  rcases Nat.lt_or_ge j l.length with hj | hj
  · rw [List.getD_eq_getElem _ _ (by simpa using hj), List.getD_eq_getElem _ _ hj,
      List.getElem_set_ne h]
  · rw [List.getD_eq_default _ _ (by simpa using hj), List.getD_eq_default _ _ hj]

theorem getD_set_self {α : Type} (l : List α) (i : ℕ) (a d : α) (h : i < l.length) :
    (l.set i a).getD i d = a := by
  rw [List.getD_eq_getElem _ _ (by simpa using h), List.getElem_set_self]

theorem setStore_eq {st : Store} {l p : ℕ} {nd : Node} {st' : Store}
    (h : setStore st l p nd = some st') :
    l < st.length ∧ p < (st.getD l []).length ∧
      st' = st.set l ((st.getD l []).set p (some nd)) := by
  unfold setStore at h
  split at h
  · next hc => cases h; exact ⟨hc.1, hc.2, rfl⟩
  · cases h

theorem setStore_get_self {st : Store} {l p : ℕ} {nd : Node} {st' : Store}
    (h : setStore st l p nd = some st') : storeGet st' l p = some nd := by
  obtain ⟨hl, hp, rfl⟩ := setStore_eq h
  unfold storeGet
  rw [getD_set_self _ _ _ _ hl, getD_set_self _ _ _ _ hp]

theorem setStore_get_ne {st : Store} {l p : ℕ} {nd : Node} {st' : Store} {a b : ℕ}
    (h : setStore st l p nd = some st') (hab : a ≠ l ∨ b ≠ p) :
    storeGet st' a b = storeGet st a b := by
  obtain ⟨hl, hp, rfl⟩ := setStore_eq h
  unfold storeGet
  rcases eq_or_ne a l with rfl | hne
  · rcases hab with hab | hab
    · exact absurd rfl hab
    · rw [getD_set_self _ _ _ _ hl, getD_set_ne _ _ _ _ _ (fun hc => hab hc.symm)]
  · rw [getD_set_ne _ _ _ _ _ (fun hc => hne hc.symm)]

theorem setStore_shape {st : Store} {l p : ℕ} {nd : Node} {st' : Store}
    (h : setStore st l p nd = some st') :
    st'.length = st.length ∧ ∀ a, (st'.getD a []).length = (st.getD a []).length := by
  obtain ⟨hl, _, rfl⟩ := setStore_eq h
  refine ⟨List.length_set .., fun a => ?_⟩
  rcases eq_or_ne a l with rfl | hne
  · rw [getD_set_self _ _ _ _ hl, List.length_set]
  · rw [getD_set_ne _ _ _ _ _ (fun hc => hne hc.symm)]

theorem setStore_isSome {st : Store} {l p : ℕ} {nd : Node} {st' : Store}
    (h : setStore st l p nd = some st') (a b : ℕ)
    (hs : (storeGet st a b).isSome) : (storeGet st' a b).isSome := by
  rcases eq_or_ne a l with rfl | hne
  · rcases eq_or_ne b p with rfl | hbe
    · rw [setStore_get_self h]; rfl
    · rw [setStore_get_ne h (Or.inr hbe)]; exact hs
  · rw [setStore_get_ne h (Or.inl hne)]; exact hs

/-- Any reflexive-transitive store relation established by every `recurse`
call is established by the whole child loop. -/
theorem childLoop_rel {P : Store → Store → Prop}
    (recurse : List ℤ → List ℤ → ℤ → ℕ → Store → Option Store)
    (values indices : List ℤ) (rs : ℤ) (loc width : ℕ)
    (hrefl : ∀ st, P st st)
    (htrans : ∀ a b c, P a b → P b c → P a c)
    (hrec : ∀ v i o l st st', recurse v i o l st = some st' → P st st') :
    ∀ fuel i left right offset st st',
      childLoop recurse values indices rs loc width fuel i left right offset st
        = some st' → P st st' := by
  intro fuel
  induction fuel with
  | zero =>
    intro i left right offset st st' h
    simp only [childLoop] at h
    cases h
    exact hrefl st
  | succ fuel ih =>
    intro i left right offset st st' h
    simp only [childLoop] at h
    split at h
    · cases h
    · next st1 heq =>
      exact htrans _ _ _ (hrec _ _ _ _ _ _ heq) (ih _ _ _ _ _ _ h)

theorem buildRecursive_isSome (width : ℕ) :
    ∀ rem values indices offset curDepth loc st st',
      buildRecursive width rem values indices offset curDepth loc st = some st' →
      ∀ a b, (storeGet st a b).isSome → (storeGet st' a b).isSome := by
  intro rem
  induction rem with
  | zero =>
    intro values indices offset curDepth loc st st' h a b hs
    simp only [buildRecursive] at h
    split at h
    · cases h
    · exact setStore_isSome h a b hs
  | succ rem ih =>
    intro values indices offset curDepth loc st st' h a b hs
    simp only [buildRecursive] at h
    split at h
    · cases h
    · split at h
      · cases h
      · next st1 hset =>
        refine childLoop_rel
          (P := fun s s1 => ∀ a b, (storeGet s a b).isSome → (storeGet s1 a b).isSome)
          _ _ _ _ _ _ (fun st a b hs => hs)
          (fun x y z hxy hyz a b hs => hyz a b (hxy a b hs))
          (fun v i o l s s1 he => fun a b hs => ih _ _ _ _ _ _ _ he a b hs)
          _ _ _ _ _ _ _ h a b (setStore_isSome hset a b hs)

theorem buildRecursive_shape (width : ℕ) :
    ∀ rem values indices offset curDepth loc st st',
      buildRecursive width rem values indices offset curDepth loc st = some st' →
      st'.length = st.length ∧
        ∀ a, (st'.getD a []).length = (st.getD a []).length := by
  intro rem
  induction rem with
  | zero =>
    intro values indices offset curDepth loc st st' h
    simp only [buildRecursive] at h
    split at h
    · cases h
    · exact setStore_shape h
  | succ rem ih =>
    intro values indices offset curDepth loc st st' h
    simp only [buildRecursive] at h
    split at h
    · cases h
    · split at h
      · cases h
      · next st1 hset =>
        have h2 := childLoop_rel
          (P := fun s s' => s'.length = s.length ∧
            ∀ a, (s'.getD a []).length = (s.getD a []).length)
          _ _ _ _ _ _ (fun st => ⟨rfl, fun _ => rfl⟩)
          (fun x y z hxy hyz => ⟨hyz.1.trans hxy.1, fun a => (hyz.2 a).trans (hxy.2 a)⟩)
          (fun v i o l s s' he => ih _ _ _ _ _ _ _ he)
          _ _ _ _ _ _ _ h
        have h1 := setStore_shape hset
        exact ⟨h2.1.trans h1.1, fun a => (h2.2 a).trans (h1.2 a)⟩

/-- `buildRecursive` never touches a layer above (shallower than) the one
it is called at. -/
theorem buildRecursive_below (width : ℕ) :
    ∀ rem values indices offset curDepth loc st st',
      buildRecursive width rem values indices offset curDepth loc st = some st' →
      ∀ a, a < curDepth → ∀ p, storeGet st' a p = storeGet st a p := by
  intro rem
  induction rem with
  | zero =>
    intro values indices offset curDepth loc st st' h a ha p
    simp only [buildRecursive] at h
    split at h
    · cases h
    · exact setStore_get_ne h (Or.inl (Nat.ne_of_lt ha))
  | succ rem ih =>
    intro values indices offset curDepth loc st st' h a ha p
    simp only [buildRecursive] at h
    split at h
    · cases h
    · split at h
      · cases h
      · next st1 hset =>
        have h2 := childLoop_rel
          (P := fun s s' => ∀ a, a < curDepth + 1 → ∀ p, storeGet s' a p = storeGet s a p)
          _ _ _ _ _ _ (fun st _ _ _ => rfl)
          (fun x y z hxy hyz a ha p => (hyz a ha p).trans (hxy a ha p))
          (fun v i o l s s' he => ih _ _ _ _ _ _ _ he)
          _ _ _ _ _ _ _ h
        rw [h2 a (Nat.lt_succ_of_lt ha) p,
          setStore_get_ne hset (Or.inl (Nat.ne_of_lt ha))]

/-- After a successful `buildRecursive` call, the node it computed for its
own slot is what the final store holds there. -/
theorem buildRecursive_self (width : ℕ) :
    ∀ rem values indices offset curDepth loc st st',
      buildRecursive width rem values indices offset curDepth loc st = some st' →
      ∃ nd, mkNode values indices offset = some nd ∧
        storeGet st' curDepth loc = some nd := by
  intro rem
  induction rem with
  | zero =>
    intro values indices offset curDepth loc st st' h
    simp only [buildRecursive] at h
    split at h
    · cases h
    · next nd hnd => exact ⟨nd, hnd, setStore_get_self h⟩
  | succ rem ih =>
    intro values indices offset curDepth loc st st' h
    simp only [buildRecursive] at h
    split at h
    · cases h
    · next nd hnd =>
      split at h
      · cases h
      · next st1 hset =>
        have h2 := childLoop_rel
          (P := fun s s' => ∀ a, a < curDepth + 1 → ∀ p, storeGet s' a p = storeGet s a p)
          _ _ _ _ _ _ (fun st _ _ _ => rfl)
          (fun x y z hxy hyz a ha p => (hyz a ha p).trans (hxy a ha p))
          (fun v i o l s s' he => buildRecursive_below width rem _ _ _ _ _ _ _ he)
          _ _ _ _ _ _ _ h
        exact ⟨nd, hnd, (h2 curDepth (Nat.lt_succ_self _) loc).trans
          (setStore_get_self hset)⟩

/-! ## Regression lemmas -/

theorem variance_cons (a : ℤ) (tl : List ℤ) (m : ℚ) :
    variance (a :: tl) m = ((a : ℚ) - m) * ((a : ℚ) - m) + variance tl m := by
  simp [variance]

theorem variance_nonneg (values : List ℤ) (m : ℚ) : 0 ≤ variance values m := by
  induction values with
  | nil => simp [variance]
  | cons a tl ih =>
    rw [variance_cons]
    have := mul_self_nonneg ((a : ℚ) - m)
    linarith

theorem variance_eq_zero_mem (values : List ℤ) (m : ℚ)
    (h : variance values m = 0) : ∀ a ∈ values, (a : ℚ) = m := by
  induction values with
  | nil => simp
  | cons a tl ih =>
    rw [variance_cons] at h
    have h1 : 0 ≤ ((a : ℚ) - m) * ((a : ℚ) - m) := mul_self_nonneg _
    have h2 : 0 ≤ variance tl m := variance_nonneg tl m
    have ha : ((a : ℚ) - m) * ((a : ℚ) - m) = 0 := by linarith
    intro c hc
    rcases List.mem_cons.mp hc with rfl | hc
    · have := mul_self_eq_zero.mp ha
      linarith
    · exact ih (by linarith) c hc

/-- Over exact arithmetic a zero variance forces all keys to equal the mean
and hence a zero covariance: `Quo(covariance, variance)` with a zero
variance is always the panicking `0/0` case, never `±Inf`. -/
theorem variance_eq_zero_covariance (x y : List ℤ) (m my : ℚ)
    (h : variance x m = 0) : covariance x y m my = 0 := by
  induction x generalizing y with
  | nil => cases y <;> simp [covariance]
  | cons a tl ih =>
    cases y with
    | nil => simp [covariance]
    | cons c ys =>
      have ha : (a : ℚ) = m := variance_eq_zero_mem _ _ h a (List.mem_cons_self a tl)
      have htl : variance tl m = 0 := by
        rw [variance_cons, ha] at h
        simpa using h
      have hrest := ih ys htl
      simp only [covariance, List.zipWith_cons_cons, List.sum_cons] at hrest ⊢
      rw [ha, sub_self, zero_mul, zero_add]
      exact hrest

/-! ## Clamp lemmas: truncation toward zero followed by the code's clamp
agrees with the spec's floor-then-clamp -/

theorem clampSlot_trunc {size : ℕ} (hs : 1 ≤ size) (x : ℚ) :
    clampSlot size (ratTrunc x) = min ((size : ℤ) - 1) (max 0 ⌊x⌋) := by
  rcases le_or_lt 0 x with hx | hx
  · have hfl : 0 ≤ ⌊x⌋ := Int.floor_nonneg.mpr hx
    rw [ratTrunc, if_pos hx]
    unfold clampSlot
    split_ifs <;> omega
  · have hfl : ⌊x⌋ < 0 := by
      by_contra hc
      exact absurd (Int.floor_nonneg.mp (not_lt.mp hc)) (not_le.mpr hx)
    have ht : ratTrunc x ≤ 0 := by
      rw [ratTrunc, if_neg (not_le.mpr hx)]
      have : 0 ≤ ⌊-x⌋ := Int.floor_nonneg.mpr (by linarith)
      omega
    unfold clampSlot
    split_ifs <;> omega

theorem clampLeaf_trunc {mi : ℤ} (hmi : 0 ≤ mi) (x : ℚ) :
    clampLeaf mi (ratTrunc x) = min mi (max 0 ⌊x⌋) := by
  rcases le_or_lt 0 x with hx | hx
  · have hfl : 0 ≤ ⌊x⌋ := Int.floor_nonneg.mpr hx
    rw [ratTrunc, if_pos hx]
    unfold clampLeaf
    split_ifs <;> omega
  · have hfl : ⌊x⌋ < 0 := by
      by_contra hc
      exact absurd (Int.floor_nonneg.mp (not_lt.mp hc)) (not_le.mpr hx)
    have ht : ratTrunc x ≤ 0 := by
      rw [ratTrunc, if_neg (not_le.mpr hx)]
      have : 0 ≤ ⌊-x⌋ := Int.floor_nonneg.mpr (by linarith)
      omega
    unfold clampLeaf
    split_ifs <;> omega

/-- Step-by-step agreement of the code's traversal loop with the spec's
description, whenever `width ≥ 1`, `maxIndex ≥ 1`, and the store has the
`width^i` layer sizes. -/
theorem getIndexLoop_eq_spec (st : Store) (w : ℕ) (mi : ℤ) (v : ℤ)
    (hw : 1 ≤ w) (hmi : 1 ≤ mi)
    (hshape : ∀ i, i < st.length → (st.getD i []).length = w ^ i) :
    ∀ fuel layer nd scale, layer + fuel = st.length →
      (getIndexLoop st w mi v nd scale fuel layer).2 =
        getIndexSpecLoop st w mi v nd scale fuel layer := by
  intro fuel
  induction fuel with
  | zero =>
    intro layer nd scale hlf
    simp only [getIndexLoop, getIndexSpecLoop]
    rw [clampLeaf_trunc (by omega)]
  | succ fuel ih =>
    intro layer nd scale hlf
    have hlayer : layer < st.length := by omega
    have hsize : (st.getD layer []).length = w ^ layer := hshape layer hlayer
    have hsz1 : 1 ≤ (st.getD layer []).length := by
      rw [hsize]; exact Nat.one_le_pow _ _ (by omega)
    simp only [getIndexLoop, getIndexSpecLoop]
    rw [if_neg (by rintro ⟨h0, -⟩; omega), if_neg (by rintro ⟨h0, -⟩; omega),
      if_neg (by omega), if_neg (by omega : ¬ mi = 0),
      clampSlot_trunc hsz1, hsize]
    have hcast : ((w ^ layer : ℕ) : ℤ) = (w : ℤ) ^ layer := by push_cast; rfl
    rw [hcast]
    cases hsg : storeGet st layer
        ((min ((w : ℤ) ^ layer - 1)
          (max 0 ⌊(nd.m * v + nd.b) / (mi : ℚ) * scale⌋)).toNat) with
    | none => simp
    | some child =>
      simp only []
      exact ih (layer + 1) child (scale * w) (by omega)

/-! ## Sortedness check -/

theorem isSortedCheck_iff (l : List ℤ) :
    isSortedCheck l = true ↔
      ∀ i, i + 1 < l.length → l.getD i 0 ≤ l.getD (i + 1) 0 := by
  induction l with
  | nil => simp [isSortedCheck]
  | cons a tl ih =>
    cases tl with
    | nil => simp [isSortedCheck]
    | cons b rest =>
      simp only [isSortedCheck, Bool.and_eq_true, decide_eq_true_eq, ih]
      constructor
      · rintro ⟨hab, hrest⟩ i hi
        cases i with
        | zero => simpa using not_lt.mp hab
        | succ j =>
          have := hrest j (by simpa [Nat.succ_lt_succ_iff] using hi)
          simpa using this
      · intro h
        refine ⟨not_lt.mpr (by simpa using h 0 (by simp)), fun j hj => ?_⟩
        have := h (j + 1) (by simpa [Nat.succ_lt_succ_iff] using hj)
        simpa using this

/-! ## Population of the store -/

/-- If every `recurse` call establishes `Q` at its own child location and
preserves `Q` elsewhere, the child loop establishes `Q` at all the child
locations it iterates over. -/
theorem childLoop_populates {Q : ℕ → Store → Prop}
    (recurse : List ℤ → List ℤ → ℤ → ℕ → Store → Option Store)
    (values indices : List ℤ) (rs : ℤ) (loc width : ℕ)
    (hrec : ∀ v i o l st st', recurse v i o l st = some st' → Q l st')
    (hmono : ∀ v i o l st st', recurse v i o l st = some st' →
      ∀ l2, Q l2 st → Q l2 st') :
    ∀ fuel i left right offset st st',
      childLoop recurse values indices rs loc width fuel i left right offset st
        = some st' →
      ∀ j, i ≤ j → j < i + fuel → Q (loc * width + j) st' := by
  intro fuel
  induction fuel with
  | zero => intro i l r o st st' h j h1 h2; omega
  | succ fuel ih =>
    intro i l r o st st' h j h1 h2
    simp only [childLoop] at h
    split at h
    · cases h
    · next st1 heq =>
      rcases eq_or_ne j i with rfl | hji
      · have hq := hrec _ _ _ _ _ _ heq
        have hpres := childLoop_rel (P := fun s s1 => ∀ l2, Q l2 s → Q l2 s1)
          recurse values indices rs loc width (fun st l2 hq => hq)
          (fun a b c hab hbc l2 hq => hbc l2 (hab l2 hq))
          (fun v i2 o2 l s s1 he => hmono v i2 o2 l s s1 he)
          _ _ _ _ _ _ _ h
        exact hpres _ hq
      · exact ih _ _ _ _ _ _ h j (by omega) (by omega)

/-- A successful `buildRecursive` call leaves every slot of its subtree
cube populated: layer `curDepth + k` for `k ≤ rem`, positions
`loc·width^k … loc·width^k + width^k − 1`. -/
theorem buildRecursive_populates (width : ℕ) :
    ∀ rem values indices offset curDepth loc st st',
      buildRecursive width rem values indices offset curDepth loc st = some st' →
      ∀ k, k ≤ rem → ∀ j, j < width ^ k →
        (storeGet st' (curDepth + k) (loc * width ^ k + j)).isSome := by
  intro rem
  induction rem with
  | zero =>
    intro values indices offset curDepth loc st st' h k hk j hj
    have hk0 : k = 0 := by omega
    subst hk0
    have hj0 : j = 0 := by simpa using hj
    subst hj0
    simp only [buildRecursive] at h
    split at h
    · cases h
    · simp only [pow_zero, Nat.mul_one, Nat.add_zero]
      rw [setStore_get_self h]; rfl
  | succ rem ih =>
    intro values indices offset curDepth loc st st' h k hk j hj
    simp only [buildRecursive] at h
    split at h
    · cases h
    · split at h
      · cases h
      · next st1 hset =>
        cases k with
        | zero =>
          have hj0 : j = 0 := by simpa using hj
          subst hj0
          have h1 : (storeGet st1 curDepth loc).isSome := by
            rw [setStore_get_self hset]; rfl
          have h2 := childLoop_rel
            (P := fun s s1 => ∀ a b, (storeGet s a b).isSome → (storeGet s1 a b).isSome)
            _ _ _ _ _ _ (fun st a b hs => hs)
            (fun x y z hxy hyz a b hs => hyz a b (hxy a b hs))
            (fun v i o l s s1 he a b hs =>
              buildRecursive_isSome width rem _ _ _ _ _ _ _ he a b hs)
            _ _ _ _ _ _ _ h
          simpa using h2 curDepth loc h1
        | succ kp =>
          have hwpos : 0 < width := by
            by_contra hw0
            have hz : width = 0 := by omega
            subst hz
            simp [Nat.zero_pow] at hj
          have hpk : 0 < width ^ kp := Nat.pos_pow_of_pos _ hwpos
          have hi0w : j / width ^ kp < width := by
            apply Nat.div_lt_of_lt_mul
            calc j < width ^ (kp + 1) := hj
              _ = width ^ kp * width := by ring
          have hj0p : j % width ^ kp < width ^ kp := Nat.mod_lt _ hpk
          have hdecomp : j = (j / width ^ kp) * width ^ kp + j % width ^ kp := by
            rw [Nat.mul_comm]
            exact (Nat.div_add_mod j (width ^ kp)).symm
          have hcl := childLoop_populates
            (Q := fun l stq => ∀ k2, k2 ≤ rem → ∀ j2, j2 < width ^ k2 →
              (storeGet stq (curDepth + 1 + k2) (l * width ^ k2 + j2)).isSome)
            _ _ _ _ _ _
            (fun v i o l s s1 he => fun k2 hk2 j2 hj2 =>
              ih _ _ _ _ _ _ _ he k2 hk2 j2 hj2)
            (fun v i o l s s1 he l2 hq k2 hk2 j2 hj2 =>
              buildRecursive_isSome width rem _ _ _ _ _ _ _ he _ _
                (hq k2 hk2 j2 hj2))
            _ _ _ _ _ _ _ h (j / width ^ kp) (Nat.zero_le _) (by simpa using hi0w)
          have hfin := hcl kp (by omega) (j % width ^ kp) hj0p
          have harith : (loc * width + j / width ^ kp) * width ^ kp + j % width ^ kp
              = loc * width ^ (kp + 1) + j := by
            conv_rhs => rw [hdecomp]
            ring
          rw [show curDepth + 1 + kp = curDepth + (kp + 1) by omega, harith] at hfin
          exact hfin

/-! ## Layer allocation -/

theorem initLayers_length : ∀ d width s, (initLayers d width s).length = d := by
  intro d
  induction d with
  | zero => intro width s; rfl
  | succ d ih => intro width s; simp [initLayers, ih]

theorem initLayers_getD :
    ∀ d width s i, i < d →
      ((initLayers d width s).getD i []).length = s * width ^ i := by
  intro d
  induction d with
  | zero => intro width s i hi; omega
  | succ d ih =>
    intro width s i hi
    cases i with
    | zero => simp [initLayers]
    | succ i =>
      have := ih width (s * width) i (by omega)
      simp only [initLayers, List.getD_cons_succ, this]
      ring

theorem initLayers_get_none :
    ∀ d width s a b, storeGet (initLayers d width s) a b = none := by
  intro d
  induction d with
  | zero => intro width s a b; simp [initLayers, storeGet]
  | succ d ih =>
    intro width s a b
    cases a with
    | zero => simp [initLayers, storeGet]
    | succ a => simpa [initLayers, storeGet] using ih width (s * width) a b

/-! ## The build over the empty key array -/

/-- Building over the empty key array always succeeds (given a store of the
allocated shape) and only ever writes the all-zero degenerate node. -/
theorem buildRecursive_empty (width n : ℕ) :
    ∀ rem curDepth loc st,
      st.length = n →
      (∀ a, a < n → (st.getD a []).length = width ^ a) →
      curDepth + rem < n → loc < width ^ curDepth →
      ∃ st', buildRecursive width rem [] [] 0 curDepth loc st = some st' ∧
        ∀ a b, storeGet st' a b = storeGet st a b ∨
          storeGet st' a b = some ⟨0, 0, BF.fin 0⟩ := by
  intro rem
  induction rem with
  | zero =>
    intro curDepth loc st hlen hshape hlt hloc
    have hmk : mkNode [] [] 0 = some ⟨0, 0, BF.fin 0⟩ := by
      norm_num [mkNode]
    have hcond : curDepth < st.length ∧ loc < (st.getD curDepth []).length := by
      refine ⟨by omega, ?_⟩
      rw [hshape curDepth (by omega)]
      exact hloc
    have hset : setStore st curDepth loc ⟨0, 0, BF.fin 0⟩ =
        some (st.set curDepth
          ((st.getD curDepth []).set loc (some ⟨0, 0, BF.fin 0⟩))) := by
      rw [setStore, if_pos hcond]
    refine ⟨_, by simp only [buildRecursive, hmk]; exact hset, fun a b => ?_⟩
    rcases eq_or_ne a curDepth with rfl | hne
    · rcases eq_or_ne b loc with rfl | hbe
      · exact Or.inr (setStore_get_self hset)
      · exact Or.inl (setStore_get_ne hset (Or.inr hbe))
    · exact Or.inl (setStore_get_ne hset (Or.inl hne))
  | succ rem ih =>
    intro curDepth loc st hlen hshape hlt hloc
    have hmk : mkNode [] [] 0 = some ⟨0, 0, BF.fin 0⟩ := by
      norm_num [mkNode]
    have hcond : curDepth < st.length ∧ loc < (st.getD curDepth []).length := by
      refine ⟨by omega, ?_⟩
      rw [hshape curDepth (by omega)]
      exact hloc
    have hset : setStore st curDepth loc ⟨0, 0, BF.fin 0⟩ =
        some (st.set curDepth
          ((st.getD curDepth []).set loc (some ⟨0, 0, BF.fin 0⟩))) := by
      rw [setStore, if_pos hcond]
    set st1 := st.set curDepth
      ((st.getD curDepth []).set loc (some ⟨0, 0, BF.fin 0⟩)) with hst1
    have hst1shape : st1.length = n ∧ ∀ a, a < n →
        (st1.getD a []).length = width ^ a := by
      obtain ⟨h1, h2⟩ := setStore_shape hset
      exact ⟨h1.trans hlen, fun a ha => (h2 a).trans (hshape a ha)⟩
    have hst1rel : ∀ a b, storeGet st1 a b = storeGet st a b ∨
        storeGet st1 a b = some ⟨0, 0, BF.fin 0⟩ := by
      intro a b
      rcases eq_or_ne a curDepth with rfl | hne
      · rcases eq_or_ne b loc with rfl | hbe
        · exact Or.inr (setStore_get_self hset)
        · exact Or.inl (setStore_get_ne hset (Or.inr hbe))
      · exact Or.inl (setStore_get_ne hset (Or.inl hne))
    have hloop : ∀ fuel i stc, stc.length = n →
        (∀ a, a < n → (stc.getD a []).length = width ^ a) →
        i + fuel = width →
        ∃ st', childLoop
            (fun v idx o l s => buildRecursive width rem v idx o (curDepth + 1) l s)
            [] [] 0 loc width fuel i 0 0 0 stc = some st' ∧
          ∀ a b, storeGet st' a b = storeGet stc a b ∨
            storeGet st' a b = some ⟨0, 0, BF.fin 0⟩ := by
      intro fuel
      induction fuel with
      | zero =>
        intro i stc hclen hcshape hiw
        exact ⟨stc, rfl, fun a b => Or.inl rfl⟩
      | succ fuel ihf =>
        intro i stc hclen hcshape hiw
        have hlocchild : loc * width + i < width ^ (curDepth + 1) := by
          have h1 : loc * width + i < (loc + 1) * width := by
            have : loc * width + width = (loc + 1) * width := by ring
            omega
          have h2 : (loc + 1) * width ≤ width ^ curDepth * width :=
            Nat.mul_le_mul_right _ (by omega)
          have h3 : width ^ curDepth * width = width ^ (curDepth + 1) := by ring
          omega
        obtain ⟨st2, hrec, hrel2⟩ := ih (curDepth + 1) (loc * width + i) stc
          hclen hcshape (by omega) hlocchild
        have hst2shape := buildRecursive_shape width rem _ _ _ _ _ _ _ hrec
        obtain ⟨st3, hloopeq, hrel3⟩ := ihf (i + 1) st2
          (hst2shape.1.trans hclen)
          (fun a ha => (hst2shape.2 a).trans (hcshape a ha))
          (by omega)
        refine ⟨st3, ?_, fun a b => ?_⟩
        · have hstep : childLoop
              (fun v idx o l s => buildRecursive width rem v idx o (curDepth + 1) l s)
              [] [] 0 loc width (fuel + 1) i 0 0 0 stc
              = childLoop
                (fun v idx o l s => buildRecursive width rem v idx o (curDepth + 1) l s)
                [] [] 0 loc width fuel (i + 1) 0 0 0 st2 := by
            simp only [childLoop, clampTop, slice, nextRight, List.length_nil,
              List.take_nil, List.drop_nil]
            norm_num
            rw [hrec]
          rw [hstep]
          exact hloopeq
        · rcases hrel3 a b with h3 | h3
          · rcases hrel2 a b with h2 | h2
            · exact Or.inl (h3.trans h2)
            · exact Or.inr (h3.trans h2)
          · exact Or.inr h3
    simp only [buildRecursive, hmk]
    rw [hset]
    obtain ⟨st', hloopeq, hrel⟩ := hloop width 0 st1 hst1shape.1 hst1shape.2 (by omega)
    refine ⟨st', ?_, fun a b => ?_⟩
    · convert hloopeq using 2 <;> simp
    · rcases hrel a b with h3 | h3
      · rcases hst1rel a b with h2 | h2
        · exact Or.inl (h3.trans h2)
        · exact Or.inr (h3.trans h2)
      · exact Or.inr h3

/-- On a store whose position-0 nodes are all the zero model, the traversal
with `maxIndex = -1` (empty key array) always descends to slot 0 and
returns `-1` from the leaf clamp. -/
theorem getIndexLoop_allzero (st : Store) (w : ℕ) (q : ℤ) (hw : 1 ≤ w)
    (hnodes : ∀ a, a < st.length → storeGet st a 0 = some ⟨0, 0, BF.fin 0⟩)
    (hsize : ∀ a, a < st.length → (st.getD a []).length = w ^ a) :
    ∀ fuel layer scale, layer + fuel = st.length →
      (getIndexLoop st w (-1) q ⟨0, 0, BF.fin 0⟩ scale fuel layer).2
        = some (-1) := by
  intro fuel
  induction fuel with
  | zero =>
    intro layer scale hlf
    simp only [getIndexLoop]
    norm_num [ratTrunc, clampLeaf]
  | succ fuel ih =>
    intro layer scale hlf
    have hlayer : layer < st.length := by omega
    have hsz : (st.getD layer []).length = w ^ layer := hsize layer hlayer
    have hsz1 : ¬ (st.getD layer []).length = 0 := by
      rw [hsz]
      have := Nat.one_le_pow layer w (by omega)
      omega
    simp only [getIndexLoop]
    rw [if_neg (by rintro ⟨h0, -⟩; omega), if_neg (by rintro ⟨h0, -⟩; omega),
      if_neg hsz1, if_neg (by norm_num : ¬ (-1 : ℤ) = 0)]
    have e1 : ((⟨0, 0, BF.fin 0⟩ : Node).m * (q : ℚ) + (⟨0, 0, BF.fin 0⟩ : Node).b)
        / (((-1 : ℤ) : ℚ)) * scale = 0 := by norm_num
    rw [e1]
    have e2 : ratTrunc 0 = 0 := by norm_num [ratTrunc]
    rw [e2]
    have e3 : clampSlot (st.getD layer []).length 0 = 0 := by
      unfold clampSlot
      split_ifs <;> omega
    rw [e3]
    have e4 : ((0 : ℤ)).toNat = 0 := rfl
    rw [e4, hnodes layer hlayer]
    exact ih (layer + 1) (scale * w) (by omega)

/-! ## Sub-range bounds -/

theorem subrangesAux_length (n rs : ℤ) :
    ∀ fuel left right, (subrangesAux n rs fuel left right).length = fuel := by
  intro fuel
  induction fuel with
  | zero => intro l r; rfl
  | succ fuel ih => intro l r; simp [subrangesAux, ih]

theorem subrangesAux_bounds (n rs : ℤ) (hn : 1 ≤ n) (hrs : 0 ≤ rs) :
    ∀ fuel left right,
      0 ≤ left → left ≤ n - 1 → left ≤ right →
      (rs = 0 → right = 0) → 0 ≤ right →
      ∀ pr ∈ subrangesAux n rs fuel left right,
        0 ≤ pr.1 ∧ pr.1 ≤ pr.2 ∧ pr.2 ≤ n - 1 := by
  intro fuel
  induction fuel with
  | zero => intro _ _ _ _ _ _ _ pr hpr; simp [subrangesAux] at hpr
  | succ fuel ih =>
    intro left right h1 h2 h3 h4 h5 pr hpr
    simp only [subrangesAux, List.mem_cons] at hpr
    rcases hpr with rfl | hpr
    · unfold clampTop
      split_ifs <;> refine ⟨?_, ?_, ?_⟩ <;> simp <;> omega
    · rcases eq_or_ne rs 0 with rfl | hrs1
      · have hr0 : right = 0 := h4 rfl
        subst hr0
        have hct : clampTop n left 0 = (0, 0) := by
          unfold clampTop
          rw [if_pos le_rfl]
        rw [hct] at hpr
        have hnr : nextRight n 0 0 = 0 := by
          unfold nextRight
          omega
        rw [hnr] at hpr
        exact ih 0 0 le_rfl (by omega) le_rfl (fun _ => rfl) le_rfl pr hpr
      · have hrs2 : 1 ≤ rs := by omega
        have hb : 0 ≤ (clampTop n left right).2 ∧
            (clampTop n left right).2 ≤ n - 1 := by
          unfold clampTop
          split_ifs <;> constructor <;> simp <;> omega
        refine ih (clampTop n left right).2
          (nextRight n rs (clampTop n left right).2)
          hb.1 hb.2 ?_ (fun hc => absurd hc hrs1) ?_ pr hpr
        · unfold nextRight
          omega
        · unfold nextRight
          omega

/-! ## Claims -/

/-- C1: the claim says `GetIndex` never fails and in particular does not
abort when `maxIndex = 0` (single-key tree) with `depth ≥ 2`.  The code
aborts precisely there: the degenerate root model predicts `0`, and
internal-layer normalization computes `big.Float.Quo(0, 0)`, which panics
with `ErrNaN`.  This theorem evaluates the code on the single-key tree
built from `[5]` with `width = 2`, `depth = 2`: for every query key the
query panics (`none`) instead of returning an index in `[0, maxIndex]`. -/
theorem getIndex_single_key_aborts (q : ℤ) :
    (newRMI [5] 2 2).map (fun t => getIndex t q) = Except.ok none := by
  have h : newRMI [5] 2 2 = Except.ok ⟨2, 2, 0,
      [[some ⟨0, 0, BF.fin 0⟩], [some ⟨0, 0, BF.fin 0⟩, some ⟨0, 0, BF.fin 0⟩]]⟩ := by
    norm_num [newRMI, isSortedCheck, initLayers, buildRecursive, childLoop, mkNode,
      setStore, storeGet, clampTop, nextRight, slice, List.range_succ,
      List.replicate_succ]
  rw [h]
  simp [getIndex, storeGet, getIndexLoop, Except.map]

/-- C2: `NewRMI` returns the sortedness error exactly when some adjacent
pair is out of order (`values[i+1] < values[i]`); non-decreasing inputs
(duplicates permitted) never raise it.  The check runs before any
construction and the error carries no tree, so failure is all-or-nothing. -/
theorem newRMI_unsorted_iff (values : List ℤ) (width depth : ℕ) :
    newRMI values width depth = Except.error BuildFailure.unsorted ↔
      ∃ i, i + 1 < values.length ∧ values.getD (i + 1) 0 < values.getD i 0 := by
  constructor
  · intro h
    by_contra hno
    push_neg at hno
    have hs : isSortedCheck values = true :=
      (isSortedCheck_iff values).mpr (fun i hi => hno i hi)
    simp only [newRMI, if_pos hs] at h
    split at h
    · cases h
    · cases h
  · intro ⟨i, hi, hlt⟩
    have hs : isSortedCheck values = false := by
      rcases Bool.eq_false_or_eq_true (isSortedCheck values) with h | h
      · exact absurd ((isSortedCheck_iff values).mp h i hi) (not_le.mpr hlt)
      · exact h
    rw [newRMI, if_neg (by simp [hs])]

/-- C3 (counterexample): for a node with `n = 10` samples and `width = 2`
the carved sub-ranges are `[0, 5)` and `[5, 9)`: the right bound of the
last sub-range is clamped to `n - 1 = 9`, not `n = 10`, so index `9` — the
parent's last element — lies in no child sub-range and the union does not
cover the parent's range, contradicting the claim's "clamped into
`[0, n]`" and "the union of the children's sub-ranges covers the parent's
entire range". -/
theorem subranges_union_gap :
    subranges 2 10 = [(0, 5), (5, 9)] ∧
      ¬ ∃ pr ∈ subranges 2 10, pr.1 ≤ 9 ∧ (9 : ℤ) < pr.2 := by
  constructor
  · norm_num [subranges, subrangesAux, clampTop, nextRight]
  · norm_num [subranges, subrangesAux, clampTop, nextRight]

/-- C3 (amended): during construction at every non-leaf node with sample
count `n ≥ 1` and `width ≥ 1`, the node's range is partitioned into exactly
`width` sub-ranges carved left-to-right with running `[left, right)` bounds
of target length `⌊n / width⌋`, where all bounds are clamped into
`[0, n - 1]` — each right bound is pulled back below `n`, so the union of
the children's sub-ranges lies within `[0, n - 1)` and omits the parent's
last element. -/
theorem subranges_clamped_bounds (width n : ℕ) (hw : 1 ≤ width) (hn : 1 ≤ n) :
    (subranges width n).length = width ∧
      ∀ pr ∈ subranges width n,
        0 ≤ pr.1 ∧ pr.1 ≤ pr.2 ∧ pr.2 ≤ (n : ℤ) - 1 := by
  have hncast : (1 : ℤ) ≤ (n : ℤ) := by exact_mod_cast hn
  have hrs : 0 ≤ (n : ℤ) / (width : ℤ) :=
    Int.ediv_nonneg (by positivity) (by positivity)
  constructor
  · exact subrangesAux_length _ _ _ _ _
  · intro pr hpr
    exact subrangesAux_bounds (n : ℤ) ((n : ℤ) / (width : ℤ)) hncast hrs width 0
      (max 0 ((n : ℤ) / (width : ℤ)))
      le_rfl (by omega) (le_max_left _ _) (fun hc => by rw [hc]; rfl)
      (le_max_left _ _) pr hpr

/-- C3 (witness for the amended claim at `width = 2`, `n = 10`). -/
theorem subranges_clamped_bounds_witness :
    (1 ≤ 2 ∧ 1 ≤ 10) ∧
      ((subranges 2 10).length = 2 ∧
        ∀ pr ∈ subranges 2 10,
          0 ≤ pr.1 ∧ pr.1 ≤ pr.2 ∧ pr.2 ≤ ((10 : ℕ) : ℤ) - 1) :=
  ⟨⟨by norm_num, by norm_num⟩, subranges_clamped_bounds 2 10 (by norm_num) (by norm_num)⟩

/-- C4: the claim says a zero-variance node range (length ≥ 2, all keys
identical) is detected and does not propagate a division by zero.  The
code has no such guard: on keys `[5, 5]` (a legal non-decreasing input)
with `width = 1`, `depth = 1` the variance is zero, `coefficients`
computes `big.Float.Quo(0, 0)`, which panics, and the whole build aborts. -/
theorem zero_variance_build_aborts :
    variance [5, 5] (mean [5, 5]) = 0 ∧
      coefficients [5, 5] [0, 1] = none ∧
      newRMI [5, 5] 1 1 = Except.error BuildFailure.panicked := by
  norm_num [coefficients, mean, covariance, variance, newRMI, isSortedCheck,
    initLayers, buildRecursive, mkNode, setStore, storeGet, List.range_succ]

/-- C5: a node built from fewer than 2 samples stores the model
`slope = 0`, `intercept = offset` (the carried-forward offset),
`zeroCrossing = 0`, and its construction never reaches the regression's
divisions (`mkNode` returns `some` directly). -/
theorem degenerate_node_model (width rem : ℕ) (values indices : List ℤ)
    (offset : ℤ) (curDepth loc : ℕ) (st st' : Store)
    (hlen : indices.length < 2)
    (hb : buildRecursive width rem values indices offset curDepth loc st = some st') :
    mkNode values indices offset = some ⟨0, (offset : ℚ), BF.fin 0⟩ ∧
      storeGet st' curDepth loc = some ⟨0, (offset : ℚ), BF.fin 0⟩ := by
  have hmk : mkNode values indices offset = some ⟨0, (offset : ℚ), BF.fin 0⟩ := by
    rw [mkNode, if_neg (not_le.mpr hlen)]
  obtain ⟨nd, hnd, hget⟩ := buildRecursive_self width rem _ _ _ _ _ _ _ hb
  rw [hmk] at hnd
  cases hnd
  exact ⟨hmk, hget⟩

/-- C5 (witness): a leaf node built from the single sample `9` with
carried offset `7`. -/
theorem degenerate_node_model_witness :
    ([0] : List ℤ).length < 2 ∧
      (mkNode [9] [0] 7 = some ⟨0, ((7 : ℤ) : ℚ), BF.fin 0⟩ ∧
        storeGet [[some ⟨0, ((7 : ℤ) : ℚ), BF.fin 0⟩]] 0 0
          = some ⟨0, ((7 : ℤ) : ℚ), BF.fin 0⟩) :=
  ⟨by norm_num,
    degenerate_node_model 2 0 [9] [0] 7 0 0 [[none]]
      [[some ⟨0, ((7 : ℤ) : ℚ), BF.fin 0⟩]] (by norm_num)
      (by norm_num [buildRecursive, mkNode, setStore])⟩

/-- C6 (counterexample): on the built single-key tree (`maxIndex = 0`,
`depth = 2`) the code does not follow the claimed traversal to the end: it
panics in the normalization (`none`), while the claimed traversal
(`getIndexSpec`) returns an index, so the two disagree there. -/
theorem getIndex_spec_divergence_single_key :
    (newRMI [5] 2 2).map (fun t => (getIndex t 5, getIndexSpec t 5)) =
      Except.ok (none, some 0) := by
  have h : newRMI [5] 2 2 = Except.ok ⟨2, 2, 0,
      [[some ⟨0, 0, BF.fin 0⟩], [some ⟨0, 0, BF.fin 0⟩, some ⟨0, 0, BF.fin 0⟩]]⟩ := by
    norm_num [newRMI, isSortedCheck, initLayers, buildRecursive, childLoop, mkNode,
      setStore, storeGet, clampTop, nextRight, slice, List.range_succ,
      List.replicate_succ]
  rw [h]
  simp [getIndex, getIndexSpec, storeGet, getIndexLoop, getIndexSpecLoop, Except.map]

/-- C6 (amended): on any tree with `width ≥ 1`, `maxIndex ≥ 1` (at least
two keys) and the allocated layer shape — in particular on every built
tree with at least two keys — `GetIndex` follows the claim's two-mode
traversal exactly: at
each non-leaf layer it computes `p = m·key + b`, divides by `maxIndex`,
multiplies by the accumulated scale (starting at `width`, multiplied by
`width` per level), clamps the slot into the layer's valid slot bounds,
and at the leaf layer returns the unnormalized `p` clamped into
`[0, maxIndex]` (`getIndexSpec` is that description verbatim, with floor
and min/max clamps). -/
theorem getIndex_follows_two_mode_traversal (rmi : RMI) (value : ℤ)
    (hw : 1 ≤ rmi.width) (hmi : 1 ≤ rmi.maxIndex)
    (hdepth : rmi.nodes.length = rmi.depth)
    (hshape : ∀ i, i < rmi.depth → (rmi.nodes.getD i []).length = rmi.width ^ i) :
    getIndex rmi value = getIndexSpec rmi value := by
  unfold getIndex getIndexSpec
  cases storeGet rmi.nodes 0 0 with
  | none => rfl
  | some root =>
    by_cases hd : rmi.depth = 0
    · simp [hd]
    · simp only [if_neg hd]
      exact getIndexLoop_eq_spec rmi.nodes rmi.width rmi.maxIndex value hw hmi
        (fun i hi => hshape i (by omega)) (rmi.depth - 1) 1 root _ (by omega)

/-- C6 (witness): the tree built from `[1, 2, 3]` with `width = 2`,
`depth = 2`, queried at key `1`. -/
theorem getIndex_follows_two_mode_traversal_witness :
    (1 ≤ (⟨2, 2, 2, [[some ⟨1, -1, BF.fin 1⟩],
        [some ⟨0, 0, BF.fin 0⟩, some ⟨0, 0, BF.fin 0⟩]]⟩ : RMI).width) ∧
      getIndex ⟨2, 2, 2, [[some ⟨1, -1, BF.fin 1⟩],
          [some ⟨0, 0, BF.fin 0⟩, some ⟨0, 0, BF.fin 0⟩]]⟩ 1 =
        getIndexSpec ⟨2, 2, 2, [[some ⟨1, -1, BF.fin 1⟩],
          [some ⟨0, 0, BF.fin 0⟩, some ⟨0, 0, BF.fin 0⟩]]⟩ 1 :=
  ⟨by norm_num,
    getIndex_follows_two_mode_traversal _ 1 (by norm_num) (by norm_num) (by norm_num)
      (by
        intro i hi
        have hi2 : i < 2 := hi
        interval_cases i <;> rfl)⟩

/-- C7 (counterexample): on `keys = [0, 1]`, `ranks = [0, 0]` — equal
lengths `≥ 2` and nonzero key variance — the fit does not return the
claimed triple: covariance and hence the slope are zero, the intercept is
zero, and the `zeroCrossing` division `Quo(-0, 0)` panics, so
`coefficients` aborts (`none`). -/
theorem coefficients_panic_zero_covariance :
    2 ≤ ([0, 1] : List ℤ).length ∧
      variance [0, 1] (mean [0, 1]) ≠ 0 ∧
      coefficients [0, 1] [0, 0] = none := by
  norm_num [coefficients, mean, covariance, variance]

/-- C7 (amended): with the additional hypothesis that the covariance is
nonzero (so the slope is nonzero and the `zeroCrossing` division is
defined), the fit returns `slope = covariance / variance`,
`intercept = mean ranks − mean keys · slope`, and
`zeroCrossing = −intercept / slope`, over the code's (exact) arithmetic. -/
theorem coefficients_formulas (keys ranks : List ℤ)
    (hlen : keys.length = ranks.length) (h2 : 2 ≤ keys.length)
    (hvar : variance keys (mean keys) ≠ 0)
    (hcov : covariance keys ranks (mean keys) (mean ranks) ≠ 0) :
    coefficients keys ranks =
      some (mean ranks - mean keys *
          (covariance keys ranks (mean keys) (mean ranks) / variance keys (mean keys)),
        covariance keys ranks (mean keys) (mean ranks) / variance keys (mean keys),
        BF.fin (-(mean ranks - mean keys *
            (covariance keys ranks (mean keys) (mean ranks) / variance keys (mean keys))) /
          (covariance keys ranks (mean keys) (mean ranks) / variance keys (mean keys)))) := by
  have hb1 : covariance keys ranks (mean keys) (mean ranks)
      / variance keys (mean keys) ≠ 0 := div_ne_zero hcov hvar
  simp only [coefficients, if_neg hvar, if_neg hb1]

/-- C7 (witness): `keys = [0, 2]`, `ranks = [0, 1]` gives
`slope = 1/2`, `intercept = 0`, `zeroCrossing = 0`. -/
theorem coefficients_formulas_witness :
    (([0, 2] : List ℤ).length = ([0, 1] : List ℤ).length ∧
      2 ≤ ([0, 2] : List ℤ).length ∧
      variance [0, 2] (mean [0, 2]) ≠ 0 ∧
      covariance [0, 2] [0, 1] (mean [0, 2]) (mean [0, 1]) ≠ 0) ∧
    coefficients [0, 2] [0, 1] = some (0, 1 / 2, BF.fin 0) := by
  have h1 : variance [0, 2] (mean [0, 2]) ≠ 0 := by norm_num [variance, mean]
  have h2 : covariance [0, 2] [0, 1] (mean [0, 2]) (mean [0, 1]) ≠ 0 := by
    norm_num [covariance, mean]
  refine ⟨⟨rfl, by norm_num, h1, h2⟩, ?_⟩
  rw [coefficients_formulas [0, 2] [0, 1] rfl (by norm_num) h1 h2]
  norm_num [mean, covariance, variance]

/-- C8: for `width ≥ 1` every successfully built tree has exactly `depth`
layers, layer `i` holds exactly `width ^ i` node slots, and every slot of
every layer is populated (children are stored at
`parentPosition · width + childIndex` by construction, see
`buildRecursive` and `buildRecursive_populates`). -/
theorem newRMI_shape_and_population (values : List ℤ) (width depth : ℕ)
    (rmi : RMI) (hw : 1 ≤ width)
    (hok : newRMI values width depth = Except.ok rmi) :
    rmi.nodes.length = depth ∧
      (∀ i, i < depth → (rmi.nodes.getD i []).length = width ^ i) ∧
      (∀ i, i < depth → ∀ p, p < width ^ i → (storeGet rmi.nodes i p).isSome) := by
  rcases Bool.eq_false_or_eq_true (isSortedCheck values) with hs | hs
  · simp only [newRMI, if_pos hs] at hok
    split at hok
    · cases hok
    · next st1 hbuild =>
      injection hok with hok2
      subst hok2
      have hshape := buildRecursive_shape width (depth - 1) _ _ _ _ _ _ _ hbuild
      have hpop := buildRecursive_populates width (depth - 1) _ _ _ _ _ _ _ hbuild
      refine ⟨hshape.1.trans (initLayers_length _ _ _), fun i hi => ?_,
        fun i hi p hp => ?_⟩
      · rw [hshape.2 i]
        simpa using initLayers_getD depth width 1 i hi
      · have := hpop i (by omega) p hp
        simpa using this
  · rw [newRMI, if_neg (by simp [hs])] at hok
    cases hok

/-- C8 (witness): the tree built from `[1, 2, 3]` with `width = 2`,
`depth = 2`. -/
theorem newRMI_shape_and_population_witness :
    (1 ≤ 2) ∧
      ((⟨2, 2, 2, [[some ⟨1, -1, BF.fin 1⟩],
          [some ⟨0, 0, BF.fin 0⟩, some ⟨0, 0, BF.fin 0⟩]]⟩ : RMI).nodes.length = 2 ∧
        (∀ i, i < 2 →
          ((⟨2, 2, 2, [[some ⟨1, -1, BF.fin 1⟩],
            [some ⟨0, 0, BF.fin 0⟩, some ⟨0, 0, BF.fin 0⟩]]⟩ : RMI).nodes.getD i []).length
            = 2 ^ i) ∧
        (∀ i, i < 2 → ∀ p, p < 2 ^ i →
          (storeGet (⟨2, 2, 2, [[some ⟨1, -1, BF.fin 1⟩],
            [some ⟨0, 0, BF.fin 0⟩, some ⟨0, 0, BF.fin 0⟩]]⟩ : RMI).nodes i p).isSome)) :=
  ⟨by norm_num,
    newRMI_shape_and_population [1, 2, 3] 2 2 _ (by norm_num)
      (by norm_num [newRMI, isSortedCheck, initLayers, buildRecursive, childLoop,
        mkNode, coefficients, mean, covariance, variance, setStore, storeGet,
        clampTop, nextRight, slice, List.range_succ, List.replicate_succ])⟩

/-- C9: the claim says `GetIndex` terminates and evaluates exactly `depth`
node models on every built tree with `depth ≥ 1`.  On the single-key tree
(`maxIndex = 0`) with `depth = 3` the code instead panics during the first
normalization after evaluating only one model: this theorem evaluates the
code there (`getIndexSteps` counts the `m·key + b` evaluations). -/
theorem getIndexSteps_aborts_single_key :
    (newRMI [7] 2 3).map (fun t => (t.depth, getIndexSteps t 7, getIndex t 7)) =
      Except.ok (3, 1, none) := by
  have h : newRMI [7] 2 3 = Except.ok ⟨2, 3, 0,
      [[some ⟨0, 0, BF.fin 0⟩],
       [some ⟨0, 0, BF.fin 0⟩, some ⟨0, 0, BF.fin 0⟩],
       [some ⟨0, 0, BF.fin 0⟩, some ⟨0, 0, BF.fin 0⟩,
        some ⟨0, 0, BF.fin 0⟩, some ⟨0, 0, BF.fin 0⟩]]⟩ := by
    norm_num [newRMI, isSortedCheck, initLayers, buildRecursive, childLoop, mkNode,
      setStore, storeGet, clampTop, nextRight, slice, List.range_succ,
      List.replicate_succ]
  rw [h]
  simp [getIndex, getIndexSteps, storeGet, getIndexLoop, Except.map]

/-- C10: for the empty key array, `NewRMI` succeeds (the empty sequence
passes the sortedness check) with `maxIndex = -1`, and every subsequent
`GetIndex` call returns `-1` — a negative index outside any valid position
range (all nodes are the zero model, so the leaf prediction `0` exceeds
`maxIndex = -1` and is clamped down to it). -/
theorem newRMI_empty_tree_neg_one (width depth : ℕ)
    (hw : 1 ≤ width) (hd : 1 ≤ depth) (q : ℤ) :
    (newRMI [] width depth).map (fun t => (t.maxIndex, getIndex t q)) =
      Except.ok (-1, some (-1)) := by
  obtain ⟨st', hbuild, hrel⟩ := buildRecursive_empty width depth (depth - 1) 0 0
    (initLayers depth width 1)
    (initLayers_length _ _ _)
    (fun a ha => by simpa using initLayers_getD depth width 1 a ha)
    (by omega) (by simpa using Nat.one_pos)
  have hnew : newRMI [] width depth = Except.ok ⟨width, depth, -1, st'⟩ := by
    simp only [newRMI, isSortedCheck, if_true, List.length_nil, List.range_zero,
      List.map_nil]
    rw [hbuild]
    norm_num
  rw [hnew]
  have hpop := buildRecursive_populates width (depth - 1) [] [] 0 0 0 _ _ hbuild
  have hshape := buildRecursive_shape width (depth - 1) [] [] 0 0 0 _ _ hbuild
  have hlen : st'.length = depth := by rw [hshape.1, initLayers_length]
  have hsizes : ∀ a, a < st'.length → (st'.getD a []).length = width ^ a := by
    intro a ha
    rw [hshape.2 a]
    simpa using initLayers_getD depth width 1 a (by omega)
  have hnodes : ∀ a, a < st'.length → storeGet st' a 0 = some ⟨0, 0, BF.fin 0⟩ := by
    intro a ha
    have hs := hpop a (by omega) 0 (Nat.one_le_pow a width (by omega))
    simp only [Nat.zero_add, Nat.zero_mul, Nat.add_zero] at hs
    rcases hrel a 0 with hold | hdef
    · rw [initLayers_get_none] at hold
      rw [hold] at hs
      cases hs
    · exact hdef
  have hroot : storeGet st' 0 0 = some ⟨0, 0, BF.fin 0⟩ := hnodes 0 (by omega)
  simp only [Except.map, getIndex, hroot]
  rw [if_neg (by omega : ¬ depth = 0)]
  rw [getIndexLoop_allzero st' width q hw hnodes hsizes (depth - 1) 1 _ (by omega)]

/-- C10 (witness): the empty tree with `width = 2`, `depth = 2`, queried
at key `7`. -/
theorem newRMI_empty_tree_neg_one_witness :
    (1 ≤ 2 ∧ 1 ≤ 2) ∧
      (newRMI [] 2 2).map (fun t => (t.maxIndex, getIndex t 7)) =
        Except.ok (-1, some (-1)) :=
  ⟨⟨by norm_num, by norm_num⟩, newRMI_empty_tree_neg_one 2 2 (by norm_num) (by norm_num) 7⟩

end Rmi
